import Mathlib

/-!
Verification of the fable normalization / deduplication / indexing pipeline
of this repository (src/deduplicate_fables.py, src/embed_fables.py).

Strings are modelled as `String` (a wrapper around `List Char`).  The model
is faithful for ASCII text, the domain of the scraped corpus: on it Python's
`str.lower`, the regex classes `\w` and `\s`, and `str.strip` coincide with
the ASCII character functions used here.  Python float scores are modelled
in fixed-point integers (tenths for the word and content scores, hundredths
for their product), with rational-valued views (`word_scoreQ`,
`content_scoreQ`, `total_scoreQ`) recovering the decimal values the source
writes: every score the scorer produces is a one- or two-decimal value
built from the constants 0.1, 0.2, 0.5, 0.8, 0.9, 1.0 in the fixed
evaluation order of the source, and the integer encoding is
order-isomorphic to that decimal arithmetic.
-/

/-- Python regex class `\s` (ASCII fragment): space, tab, newline, carriage
return, vertical tab, form feed. -/
def isSpaceChar (c : Char) : Bool :=
  c == ' ' || c == '\t' || c == '\n' || c == '\r' || c == '\x0b' || c == '\x0c'

/-- Python regex class `\w` (ASCII fragment): letters, digits and the
underscore. -/
def isWordChar (c : Char) : Bool :=
  c.isAlphanum || c == '_'

/-- Effect of `re.sub(r'^(the|a|an)\s+', '', title)`: an anchored match of a
leading article token followed by a non-empty (greedily consumed) whitespace
run is removed; the alternation tries `the`, then `a`, then `an`, exactly as
the regex engine does. -/
def stripLeadingArticle (cs : List Char) : List Char :=
  match cs with
  | 't' :: 'h' :: 'e' :: c :: rest =>
    if isSpaceChar c then List.dropWhile isSpaceChar (c :: rest) else cs
  | 'a' :: 'n' :: c :: rest =>
    if isSpaceChar c then List.dropWhile isSpaceChar (c :: rest) else cs
  | 'a' :: c :: rest =>
    if isSpaceChar c then List.dropWhile isSpaceChar (c :: rest) else cs
  | _ => cs

/-- One alternative of the trailing-genre regex, on the reversed string:
if the reversed genre word is a prefix of `rcs` and is followed there by at
least one whitespace character, drop the word and the whole whitespace run
(leftmost match = the match swallowing the entire run). -/
def stripGenreRevOne (grev : List Char) (rcs : List Char) : Option (List Char) :=
  if grev.isPrefixOf rcs then
    match rcs.drop grev.length with
    | [] => none
    | c :: rest =>
      if isSpaceChar c then some (List.dropWhile isSpaceChar (c :: rest)) else none
  else none

/-- The three genre alternatives `fable|story|tale` on the reversed string;
their reversals are pairwise non-prefix-comparable, so at most one fires. -/
def stripGenreRev (rcs : List Char) : Option (List Char) :=
  match stripGenreRevOne ("fable".data.reverse) rcs with
  | some r => some r
  | none =>
    match stripGenreRevOne ("story".data.reverse) rcs with
    | some r => some r
    | none => stripGenreRevOne ("tale".data.reverse) rcs

/-- Effect of `re.sub(r'\s+(fable|story|tale)$', '', title)`: `$` matches at
the end of the string or just before a final newline, so the removed part is
the maximal whitespace run plus genre word sitting at the (newline-stripped)
end of the string. -/
def stripTrailingGenre (cs : List Char) : List Char :=
  match cs.reverse with
  | '\n' :: r =>
    match stripGenreRev r with
    | some r2 => List.reverse ('\n' :: r2)
    | none => cs
  | r =>
    match stripGenreRev r with
    | some r2 => r2.reverse
    | none => cs

/-- Effect of `re.sub(r'\s+', ' ', title)`: every maximal whitespace run
becomes a single space (emitted at the end of the run). -/
def collapseSpaces : List Char → List Char
  | [] => []
  | [c] => if isSpaceChar c then [' '] else [c]
  | c1 :: c2 :: rest =>
    if isSpaceChar c1 then
      if isSpaceChar c2 then collapseSpaces (c2 :: rest)
      else ' ' :: collapseSpaces (c2 :: rest)
    else c1 :: collapseSpaces (c2 :: rest)

/-- Effect of Python `str.strip()`: drop whitespace from both ends. -/
def stripSpacesEnds (cs : List Char) : List Char :=
  ((cs.dropWhile isSpaceChar).reverse.dropWhile isSpaceChar).reverse

/-- List-level translation of `normalize_title` from
src/deduplicate_fables.py: lowercase, strip a leading article, strip a
trailing genre word, drop characters outside `\w` and `\s`, collapse
whitespace runs and trim. -/
def normChars (cs : List Char) : List Char :=
  let t1 := cs.map Char.toLower
  let t2 := stripLeadingArticle t1
  let t3 := stripTrailingGenre t2
  let t4 := t3.filter (fun c => isWordChar c || isSpaceChar c)
  stripSpacesEnds (collapseSpaces t4)

/-- Translation of `normalize_title` (src/deduplicate_fables.py, lines
11-24). -/
def normalize_title (s : String) : String :=
  String.mk (normChars s.data)

/-- Python substring test `needle in haystack`. -/
def containsSub (needle : List Char) : List Char → Bool
  | [] => needle.isPrefixOf ([])
  | c :: rest => needle.isPrefixOf (c :: rest) || containsSub needle rest

/-- A raw record of the corpus as the deduplication script reads it
(the fields of `aesop_fables.json` that src/deduplicate_fables.py touches).
`word_count` is a whitespace-token count, hence a natural number. -/
structure Fable where
  title : String
  content : String
  word_count : Nat
  url : String
deriving DecidableEq

/-- Word-count score from `choose_best_version` (src/deduplicate_fables.py,
lines 35-43), branches in source order.  Scores are held in fixed-point
tenths (1.0 ↦ 10, 0.8 ↦ 8, 0.9 ↦ 9, 0.5 ↦ 5): every score of the source is
a one-decimal value, and this integer encoding is order-isomorphic to the
decimal arithmetic the source performs.  `word_scoreQ` below is the
rational-valued view. -/
def word_score (word_count : Nat) : ℤ :=
  if 100 ≤ word_count ∧ word_count ≤ 500 then 10
  else if 50 ≤ word_count ∧ word_count < 100 then 8
  else if 500 < word_count ∧ word_count ≤ 1000 then 9
  else 5

/-- Content-quality score from `choose_best_version` (lines 45-56) in
fixed-point tenths (1.0 ↦ 10, penalties 0.1 ↦ 1, 0.2 ↦ 2, bonus 0.2 ↦ 2),
applied in source order. -/
def content_score (content : String) : ℤ :=
  let s1 : ℤ := 10
  let s2 := if containsSub ("AesopFables.com").data content.data then s1 - 1 else s1
  let s3 := if containsSub ("Process took:").data content.data then s2 - 2 else s2
  let s4 := if containsSub ("Copyright").data content.data then s3 - 1 else s3
  let lowered := content.data.map Char.toLower
  if containsSub ("moral:").data lowered || containsSub ("lesson:").data lowered
      || containsSub ("application:").data lowered then
    s4 + 2
  else s4

/-- The per-candidate score `total_score = word_score * content_score`
(line 58), in fixed-point hundredths. -/
def total_score (f : Fable) : ℤ :=
  word_score f.word_count * content_score f.content

/-- Rational value of the word-count score as the source writes it. -/
def word_scoreQ (word_count : Nat) : ℚ := (word_score word_count : ℚ) / 10

/-- Rational value of the content-quality score as the source writes it. -/
def content_scoreQ (content : String) : ℚ := (content_score content : ℚ) / 10

/-- Rational value of the total score as the source writes it. -/
def total_scoreQ (f : Fable) : ℚ := (total_score f : ℚ) / 100

/-- Python `max(xs, key=lambda x: x[0])` over a non-empty list given as head
and tail: the current best is replaced only when a later element is strictly
greater, so the first of several maxima wins. -/
def maxPairFirst {α : Type} : (ℤ × α) → List (ℤ × α) → (ℤ × α)
  | best, [] => best
  | best, x :: xs => if best.1 < x.1 then maxPairFirst x xs else maxPairFirst best xs

/-- Translation of `choose_best_version` (lines 26-62): score every
candidate, return the first highest-scored one.  Python's `max` raises on an
empty list, modelled by `none`. -/
def choose_best_version (duplicates : List Fable) : Option Fable :=
  match duplicates.map (fun f => (total_score f, f)) with
  | [] => none
  | x :: xs => some (maxPairFirst x xs).2

/-- The separator `?srch&` of the removed-story URL normalization. -/
def srchChars : List Char := ("?srch&").data

/-- Python `url.split('?srch&')`: left-to-right non-overlapping splitting,
pieces in order (always at least one piece). -/
def splitSrchAux : List Char → List Char → List (List Char)
  | acc, [] => [acc.reverse]
  | acc, '?' :: 's' :: 'r' :: 'c' :: 'h' :: '&' :: rest => acc.reverse :: splitSrchAux [] rest
  | acc, c :: rest => splitSrchAux (c :: acc) rest

/-- Translation of the removed-story key (line 103):
`url.split('?srch&')[-1] if '?srch&' in url else url`. -/
def url_suffix (url : String) : String :=
  if containsSub srchChars url.data then
    String.mk ((splitSrchAux [] url.data).getLastD [])
  else url

/-- The grouping key of a record (line 77). -/
def normKey (f : Fable) : String := normalize_title f.title

/-- One `title_groups[normalized_title].append(fable)` step on an
insertion-ordered association list: append to the existing group of that
key, or open a new group at the end (Python dicts preserve insertion
order). -/
def insertGroup {α : Type} : List (String × List α) → String → α → List (String × List α)
  | [], k, f => [(k, [f])]
  | (k0, g) :: rest, k, f =>
    if k0 = k then (k0, g ++ [f]) :: rest else (k0, g) :: insertGroup rest k f

/-- The grouping loop of `deduplicate_fables` (lines 74-78). -/
def groupByKey (fables : List Fable) : List (String × List Fable) :=
  fables.foldl (fun gs f => insertGroup gs (normKey f) f) []

/-- One iteration of the selection loop of `deduplicate_fables` (lines
85-108) over the accumulated (kept, removed) pair: groups with more than one
member go through `choose_best_version` and every non-best member's
normalized URL is recorded; singleton groups are kept as they are.  The
`none`/`[]` fallbacks are unreachable (groups are never empty; Python would
raise there). -/
def dedupStep (acc : List Fable × List String) (g : List Fable) : List Fable × List String :=
  if 1 < g.length then
    match choose_best_version g with
    | some best =>
      (acc.1 ++ [best], acc.2 ++ (g.filter (fun x => x != best)).map (fun x => url_suffix x.url))
    | none => acc
  else
    match g with
    | f :: _ => (acc.1 ++ [f], acc.2)
    | [] => acc

/-- Translation of the pure core of `deduplicate_fables` (lines 64-127,
without file I/O and printing): the deduplicated list and the removed-story
audit list, both in deterministic group order. -/
def deduplicate_fables (fables : List Fable) : List Fable × List String :=
  (groupByKey fables).foldl (fun acc kg => dedupStep acc kg.2) ([], [])

/-- The contribution of one group to the deduplicated output. -/
def survivorOf (g : List Fable) : List Fable :=
  if 1 < g.length then
    match choose_best_version g with
    | some best => [best]
    | none => []
  else
    match g with
    | f :: _ => [f]
    | [] => []

/-- The contribution of one group to the removed-story audit list. -/
def removedOf (g : List Fable) : List String :=
  if 1 < g.length then
    match choose_best_version g with
    | some best => (g.filter (fun x => x != best)).map (fun x => url_suffix x.url)
    | none => []
  else []

/-- First index of the haystack whose suffix satisfies `p` (the position at
which a regex scan succeeds); the end-of-string position is scanned too. -/
def findIdxSuffix (p : List Char → Bool) : List Char → Option Nat
  | [] => if p ([]) then some 0 else none
  | c :: rest => if p (c :: rest) then some 0 else (findIdxSuffix p rest).map (· + 1)

/-- Index of the leftmost occurrence of `needle` in the haystack. -/
def findSubstrIdx (needle : List Char) (hay : List Char) : Option Nat :=
  findIdxSuffix (fun s => needle.isPrefixOf s) hay

/-- Effect of `re.sub(r'^AesopFables\.com.*?\n', '', content)`
(src/embed_fables.py, line 32): if the text starts with the site header,
drop everything up to and including the first newline after it (`.` does not
cross newlines, so the non-greedy run stops at the first newline). -/
def cleanHeader (cs : List Char) : List Char :=
  if ("AesopFables.com").data.isPrefixOf cs then
    let rest := cs.drop 15
    match rest.findIdx? (fun c => c == '\n') with
    | some j => rest.drop (j + 1)
    | none => cs
  else cs

/-- Effect of `re.sub(r'Process took:.*?Copyright.*?$', '', content,
flags=re.DOTALL)` (line 35): with DOTALL the match runs from the first
`Process took:` that has a later `Copyright` up to the end of the string
(`$` also matches just before one final newline, which then survives). -/
def cleanFooterCopyright (cs : List Char) : List Char :=
  match findSubstrIdx ("Process took:").data cs with
  | some p =>
    if containsSub ("Copyright").data (cs.drop (p + 13)) then
      cs.take p ++ (if cs.getLast? == some '\n' then [('\n')] else [])
    else cs
  | none => cs

/-- Scan predicate of `RETURN\s*Process took`: the literal `RETURN`, a
whitespace run, then `Process took` (which, starting with a non-whitespace
character, can only begin at the end of the maximal run). -/
def matchesReturnFooter (s : List Char) : Bool :=
  ("RETURN").data.isPrefixOf s
    && ("Process took").data.isPrefixOf ((s.drop 6).dropWhile isSpaceChar)

/-- Effect of `re.sub(r'RETURN\s*Process took.*?$', '', content,
flags=re.DOTALL)` (line 36). -/
def cleanReturnFooter (cs : List Char) : List Char :=
  match findIdxSuffix matchesReturnFooter cs with
  | some p => cs.take p ++ (if cs.getLast? == some '\n' then [('\n')] else [])
  | none => cs

/-- Scan predicate of `THE END\s*RETURN`. -/
def matchesTheEnd (s : List Char) : Bool :=
  ("THE END").data.isPrefixOf s
    && ("RETURN").data.isPrefixOf ((s.drop 7).dropWhile isSpaceChar)

/-- Effect of `re.sub(r'THE END\s*RETURN.*?$', '', content,
flags=re.DOTALL)` (line 37). -/
def cleanTheEnd (cs : List Char) : List Char :=
  match findIdxSuffix matchesTheEnd cs with
  | some p => cs.take p ++ (if cs.getLast? == some '\n' then [('\n')] else [])
  | none => cs

/-- Index of the last newline of a list (used on a maximal whitespace run:
the backtracked greedy `\s*` of `\n\s*\n` ends at the run's last newline). -/
def lastNlIdx : List Char → Option Nat
  | [] => none
  | c :: rest =>
    match lastNlIdx rest with
    | some k => some (k + 1)
    | none => if c == '\n' then some 0 else none

/-- Effect of `re.sub(r'\n\s*\n', '\n\n', content)` (line 40): every
whitespace run that starts and ends with a newline (containing at least two)
collapses to exactly two newlines; scanning resumes after the match. -/
def collapseBlankLines : List Char → List Char
  | [] => []
  | c :: rest =>
    if c == '\n' then
      match lastNlIdx (rest.takeWhile isSpaceChar) with
      | some k => '\n' :: '\n' :: collapseBlankLines (rest.drop (k + 1))
      | none => c :: collapseBlankLines rest
    else c :: collapseBlankLines rest
termination_by cs => cs.length
decreasing_by
· simp only [List.length_cons, List.length_drop]
  omega
· simp only [List.length_cons]
  omega
· simp only [List.length_cons]
  omega

/-- Translation of `FableEmbedder.clean_content` (src/embed_fables.py,
lines 29-43): the five substitutions in source order, then `strip()`. -/
def clean_content (content : String) : String :=
  let c1 := cleanHeader content.data
  let c2 := cleanFooterCopyright c1
  let c3 := cleanReturnFooter c2
  let c4 := cleanTheEnd c3
  let c5 := collapseBlankLines c4
  String.mk (stripSpacesEnds c5)

/-- A record as `FableEmbedder.embed_fables` reads it (the JSON fields it
touches). -/
structure EmbedFable where
  title : String
  original_title : String
  url : String
  content : String
  word_count : Nat
deriving DecidableEq

/-- The metadata dict built per fable (src/embed_fables.py, lines 83-89). -/
structure EntryMeta where
  title : String
  original_title : String
  url : String
  word_count : Nat
  cleaned_length : Nat
deriving DecidableEq

/-- One persisted store entry: id, document text and metadata. -/
structure StoreEntry where
  id : String
  document : String
  metadata : EntryMeta
deriving DecidableEq

/-- Python `f"{i:04d}"`: decimal rendering left-padded with zeros to at
least four digits. -/
def zeroPad4 (n : Nat) : String :=
  let s := toString n
  if s.length < 4 then String.mk (List.replicate (4 - s.length) '0') ++ s else s

/-- The id assigned to the `i`-th fable (line 92): `f"fable_{i:04d}"`. -/
def fableId (i : Nat) : String := ("fable_") ++ zeroPad4 i

/-- The document, metadata and id built for the `i`-th fable (lines
75-92). -/
def mkEntry (i : Nat) (f : EmbedFable) : StoreEntry :=
  let doc := clean_content f.content
  { id := fableId i
    document := doc
    metadata :=
      { title := f.title
        original_title := f.original_title
        url := f.url
        word_count := f.word_count
        cleaned_length := doc.length } }

/-- All entries in input order (the parallel `documents`/`metadatas`/`ids`
lists oflines 71-92, fused). -/
def mkEntries (fables : List EmbedFable) : List StoreEntry :=
  fables.enum.map (fun p => mkEntry p.1 p.2)

/-- The batch slices `entries[i:i+100]` for `i in range(0, n, 100)` (lines
95-100), in ascending order. -/
def chunks100 : List StoreEntry → List (List StoreEntry)
  | [] => []
  | e :: rest => ((e :: rest).take 100) :: chunks100 ((e :: rest).drop 100)
termination_by cs => cs.length
decreasing_by
simp only [List.length_cons, List.length_drop]
omega

/-- Modelled from the spec: the vector store's batch insert appends the
batch and `get_all` reads entries back in insertion order (spec section 4.4:
"full scan, stable order = insertion order").  The store itself (ChromaDB's
`collection.add`) is an external collaborator, not code of this
repository. -/
def storeAdd (store : List StoreEntry) (batch : List StoreEntry) : List StoreEntry :=
  store ++ batch

/-- Translation of `FableEmbedder.embed_fables` (lines 66-108) run against
an empty collection: build all entries, submit them in batches of 100, and
return the final store contents (what `get_all` would read back). -/
def embed_fables (fables : List EmbedFable) : List StoreEntry :=
  (chunks100 (mkEntries fables)).foldl storeAdd []

/-- A raw JSON record in which any of the fields the deduplication pipeline
reads may be missing (`none`): the domain of the malformed-record claim. -/
structure RawRecord where
  title : Option String
  content : Option String
  word_count : Option Nat
  url : Option String
deriving DecidableEq

/-- The grouping loop (src/deduplicate_fables.py, lines 76-78) over records
with possibly missing fields: `fable['title']` on a record without a title
raises `KeyError`, which aborts the loop. -/
def groupRawAux : List (String × List RawRecord) → List RawRecord → Except String (List (String × List RawRecord))
  | gs, [] => Except.ok gs
  | gs, r :: rest =>
    match r.title with
    | none => Except.error ("KeyError: title")
    | some t => groupRawAux (insertGroup gs (normalize_title t) r) rest

/-- Scoring one candidate (lines 31-58) with possibly missing fields:
`fable['word_count']` is read first, then `fable['content']`. -/
def score_raw (r : RawRecord) : Except String ℤ :=
  match r.word_count with
  | none => Except.error ("KeyError: word_count")
  | some wc =>
    match r.content with
    | none => Except.error ("KeyError: content")
    | some c => Except.ok (word_score wc * content_score c)

/-- The `scored_versions` loop of `choose_best_version` over raw records:
stops at the first record with a missing field. -/
def scoreListRaw : List RawRecord → Except String (List (ℤ × RawRecord))
  | [] => Except.ok []
  | r :: rest =>
    match score_raw r with
    | Except.error e => Except.error e
    | Except.ok s =>
      match scoreListRaw rest with
      | Except.error e => Except.error e
      | Except.ok tl => Except.ok ((s, r) :: tl)

/-- `choose_best_version` over raw records. -/
def choose_best_raw (g : List RawRecord) : Except String RawRecord :=
  match scoreListRaw g with
  | Except.error e => Except.error e
  | Except.ok [] => Except.error ("ValueError: max of empty sequence")
  | Except.ok (x :: xs) => Except.ok (maxPairFirst x xs).2

/-- The removed-story loop (lines 100-104) over raw records:
`fable['url']` of a non-best member may raise `KeyError`. -/
def removedRaw : List RawRecord → RawRecord → Except String (List String)
  | [], _ => Except.ok []
  | r :: rest, best =>
    if r = best then removedRaw rest best
    else
      match r.url with
      | none => Except.error ("KeyError: url")
      | some u =>
        match removedRaw rest best with
        | Except.error e => Except.error e
        | Except.ok tl => Except.ok (url_suffix u :: tl)

/-- The selection loop (lines 85-108) over raw groups. -/
def dedupRawLoop : (List RawRecord × List String) → List (String × List RawRecord) → Except String (List RawRecord × List String)
  | acc, [] => Except.ok acc
  | acc, (_, g) :: rest =>
    if 1 < g.length then
      match choose_best_raw g with
      | Except.error e => Except.error e
      | Except.ok best =>
        match removedRaw g best with
        | Except.error e => Except.error e
        | Except.ok rs => dedupRawLoop (acc.1 ++ [best], acc.2 ++ rs) rest
    else
      match g with
      | [] => Except.error ("IndexError: list index out of range")
      | r :: _ => dedupRawLoop (acc.1 ++ [r], acc.2) rest

/-- The deduplication pipeline over records with possibly missing fields:
the first missing field it touches raises, aborting the whole batch. -/
def deduplicate_fables_raw (records : List RawRecord) : Except String (List RawRecord × List String) :=
  match groupRawAux [] records with
  | Except.error e => Except.error e
  | Except.ok gs => dedupRawLoop ([], []) gs

/-! ### Concrete fixtures used by counterexamples and witnesses -/

/-- A 40-word candidate with marker-free content (claim C2's example). -/
def cand40 : Fable := { title := ("Fox"), content := ("short text"), word_count := 40, url := ("u40") }

/-- A 250-word candidate with marker-free content (claim C2's example). -/
def cand250 : Fable := { title := ("Fox"), content := ("medium text"), word_count := 250, url := ("u250") }

/-- A 1500-word candidate with marker-free content (claim C2's example). -/
def cand1500 : Fable := { title := ("Fox"), content := ("long text"), word_count := 1500, url := ("u1500") }

/-- A record whose title is pure punctuation: its key is empty. -/
def fEmptyA : Fable := { title := ("!!!"), content := ("a"), word_count := 200, url := ("ua") }

/-- A record whose title is whitespace plus a genre word: its key is empty. -/
def fEmptyB : Fable := { title := (" fable"), content := ("b"), word_count := 40, url := ("ub") }

/-- A record with an ordinary title. -/
def fOther : Fable := { title := ("Fox"), content := ("c"), word_count := 120, url := ("uc") }

/-- A well-formed raw record. -/
def rawOk1 : RawRecord :=
  { title := some ("Fox"), content := some ("a"), word_count := some 120, url := some ("u1") }

/-- A second well-formed raw record with a different title. -/
def rawOk2 : RawRecord :=
  { title := some ("Crow"), content := some ("b"), word_count := some 130, url := some ("u2") }

/-- A raw record missing its required `title` field. -/
def rawNoTitle : RawRecord :=
  { title := none, content := some ("c"), word_count := some 140, url := some ("u3") }

/-- The keys of an insertion-ordered association list of groups. -/
def keysOf {α : Type} (gs : List (String × List α)) : List String := gs.map Prod.fst

/-- Association-list lookup (Python dict access by key). -/
def lookupKey {α : Type} (k : String) : List (String × List α) → Option (List α)
  | [] => none
  | (k0, g) :: rest => if k0 = k then some g else lookupKey k rest

/-- Reference order used to state the grouping order: the keys of a list in
first-seen order (each key once, at the position of its first occurrence).
This follows the spec's words ("preserving first-seen insertion order ... of
groups overall") and is compared against the order `groupByKey` produces. -/
def firstSeen : List String → List String
  | [] => []
  | k :: rest => k :: (firstSeen rest).filter (fun x => x != k)

/-! ### Helper lemmas -/

lemma dropWhile_eq_self_of_head (l : List Char)
    (h : l.head?.all (fun c => ! isSpaceChar c) = true) :
    List.dropWhile isSpaceChar l = l := by
  cases l with
  | nil => rfl
  | cons c l' =>
    simp only [List.head?_cons, Option.all_some, Bool.not_eq_true'] at h
    simp [List.dropWhile_cons, h]

lemma mem_collapseSpaces {c : Char} :
    ∀ {l : List Char}, c ∈ collapseSpaces l → c = ' ' ∨ (c ∈ l ∧ isSpaceChar c = false) := by
  intro l
  induction l with
  | nil => simp [collapseSpaces]
  | cons a l ih =>
    cases l with
    | nil =>
      by_cases hsp : isSpaceChar a = true
      · intro h
        rw [show collapseSpaces [a] = [' '] from by simp [collapseSpaces, hsp]] at h
        exact Or.inl (List.mem_singleton.1 h)
      · intro h
        rw [show collapseSpaces [a] = [a] from by simp [collapseSpaces, hsp]] at h
        rw [List.mem_singleton] at h
        subst h
        exact Or.inr ⟨List.mem_singleton_self _, by simpa using hsp⟩
    | cons b m =>
      by_cases hsp1 : isSpaceChar a = true
      · by_cases hsp2 : isSpaceChar b = true
        · intro h
          rw [show collapseSpaces (a :: b :: m) = collapseSpaces (b :: m) from by
            simp [collapseSpaces, hsp1, hsp2]] at h
          rcases ih h with h1 | ⟨h2, h3⟩
          · exact Or.inl h1
          · exact Or.inr ⟨List.mem_cons_of_mem _ h2, h3⟩
        · intro h
          rw [show collapseSpaces (a :: b :: m) = ' ' :: collapseSpaces (b :: m) from by
            simp [collapseSpaces, hsp1, hsp2]] at h
          rcases List.mem_cons.1 h with h1 | h1
          · exact Or.inl h1
          · rcases ih h1 with h2 | ⟨h3, h4⟩
            · exact Or.inl h2
            · exact Or.inr ⟨List.mem_cons_of_mem _ h3, h4⟩
      · intro h
        rw [show collapseSpaces (a :: b :: m) = a :: collapseSpaces (b :: m) from by
          simp [collapseSpaces, hsp1]] at h
        rcases List.mem_cons.1 h with h1 | h1
        · subst h1
          exact Or.inr ⟨List.mem_cons_self _ _, by simpa using hsp1⟩
        · rcases ih h1 with h2 | ⟨h3, h4⟩
          · exact Or.inl h2
          · exact Or.inr ⟨List.mem_cons_of_mem _ h3, h4⟩

lemma mem_stripSpacesEnds {c : Char} {l : List Char} (h : c ∈ stripSpacesEnds l) : c ∈ l := by
  unfold stripSpacesEnds at h
  rw [List.mem_reverse] at h
  have h2 := (List.dropWhile_sublist isSpaceChar).subset h
  rw [List.mem_reverse] at h2
  exact (List.dropWhile_sublist isSpaceChar).subset h2

/-! ### Claim C2: scorer values and the three-candidate example -/

/-- Claim C2 (confirmed): `word_score` is 1.0 on [100, 500], 0.9 on
(500, 1000], 0.8 on [50, 100) and 0.5 otherwise; `total_score` is the
product of word and content scores; and on the marker-free candidates with
word counts 40, 250 and 1500 (scores 0.5, 1.0, 0.5) `choose_best_version`
returns the 250-word candidate. -/
theorem c2_word_score_and_selection (wc : Nat) :
    (100 ≤ wc ∧ wc ≤ 500 → word_scoreQ wc = 1)
    ∧ (500 < wc ∧ wc ≤ 1000 → word_scoreQ wc = 0.9)
    ∧ (50 ≤ wc ∧ wc < 100 → word_scoreQ wc = 0.8)
    ∧ (¬(100 ≤ wc ∧ wc ≤ 500) → ¬(500 < wc ∧ wc ≤ 1000) → ¬(50 ≤ wc ∧ wc < 100) →
        word_scoreQ wc = 0.5)
    ∧ (∀ f : Fable, total_scoreQ f = word_scoreQ f.word_count * content_scoreQ f.content)
    ∧ choose_best_version [cand40, cand250, cand1500] = some cand250
    ∧ total_scoreQ cand40 = 0.5 ∧ total_scoreQ cand250 = 1 ∧ total_scoreQ cand1500 = 0.5 := by
  refine ⟨?_, ?_, ?_, ?_, ?_, ?_, ?_, ?_, ?_⟩
  · intro h
    simp only [word_scoreQ, word_score]
    rw [if_pos h]
    norm_num
  · intro h
    simp only [word_scoreQ, word_score]
    rw [if_neg (show ¬(100 ≤ wc ∧ wc ≤ 500) by omega),
      if_neg (show ¬(50 ≤ wc ∧ wc < 100) by omega), if_pos h]
    norm_num
  · intro h
    simp only [word_scoreQ, word_score]
    rw [if_neg (show ¬(100 ≤ wc ∧ wc ≤ 500) by omega), if_pos h]
    norm_num
  · intro h1 h2 h3
    simp only [word_scoreQ, word_score]
    rw [if_neg h1, if_neg h3, if_neg h2]
    norm_num
  · intro f
    simp only [total_scoreQ, total_score, word_scoreQ, content_scoreQ]
    push_cast
    ring
  · decide
  · rw [total_scoreQ, show total_score cand40 = 50 from by decide]
    norm_num
  · rw [total_scoreQ, show total_score cand250 = 100 from by decide]
    norm_num
  · rw [total_scoreQ, show total_score cand1500 = 50 from by decide]
    norm_num

/-! ### Claim C5: which characters survive normalization -/

/-- Claim C5 counterexample: the underscore — which is neither a letter, a
digit nor whitespace — survives normalization, because the source's step 4
keeps the whole regex class `\w`, which contains the underscore. -/
theorem c5_counterexample :
    ('_' ∈ (normalize_title ("fox_grapes")).data)
    ∧ ¬('_'.isAlpha = true ∨ '_'.isDigit = true ∨ isSpaceChar '_' = true) := by
  decide

/-- Claim C5 as amended: every character of a normalized key is a word
character (letter, digit or underscore) or a space. -/
theorem c5_normalized_chars_word_or_space (s : String) (c : Char)
    (h : c ∈ (normalize_title s).data) : isWordChar c = true ∨ c = ' ' := by
  have h1 : c ∈ normChars s.data := h
  simp only [normChars] at h1
  have h2 := mem_stripSpacesEnds h1
  rcases mem_collapseSpaces h2 with h3 | ⟨h4, h5⟩
  · exact Or.inr h3
  · rcases List.mem_filter.1 h4 with ⟨-, hp⟩
    left
    simpa [h5] using hp

/-- Claim C5 witness: the amended statement at a concrete input. -/
theorem c5_witness : isWordChar 'a' = true ∨ 'a' = ' ' :=
  c5_normalized_chars_word_or_space ("ab") 'a' (by decide)

/-! ### Claim C6: the normalization equivalence -/

/-- Claim C6 counterexample: two titles that differ only by a leading
article token normalize to different keys — prepending `the ` to a title
that itself starts with an article changes the key, since the anchored
article regex strips only one article. -/
theorem c6_counterexample :
    ("the the fox") = ("the ") ++ ("the fox")
    ∧ normalize_title ("the the fox") ≠ normalize_title ("the fox") := by
  decide

/-- Claim C6 as amended: prepending a leading article preserves the
normalized key whenever the lowercased title neither starts with whitespace
nor itself begins with a strippable article; and the claim's concrete
instance holds. -/
theorem c6_article_invariance (t : String)
    (hA : stripLeadingArticle (t.data.map Char.toLower) = t.data.map Char.toLower)
    (hW : (t.data.map Char.toLower).head?.all (fun c => ! isSpaceChar c) = true) :
    normalize_title (("the ") ++ t) = normalize_title t
    ∧ normalize_title ("The Fox And The Grapes Fable") = normalize_title ("fox and the grapes") := by
  constructor
  · have hmap : List.map Char.toLower (("the ") ++ t).data
        = 't' :: 'h' :: 'e' :: ' ' :: List.map Char.toLower t.data := by
      show List.map Char.toLower (("the ").data ++ t.data) = _
      rw [List.map_append]
      rfl
    have hstrip : stripLeadingArticle ('t' :: 'h' :: 'e' :: ' ' :: List.map Char.toLower t.data)
        = List.dropWhile isSpaceChar (List.map Char.toLower t.data) := rfl
    simp only [normalize_title, normChars]
    rw [hmap, hstrip, dropWhile_eq_self_of_head _ hW, hA]
  · decide

/-- Claim C6 witness: the guarded invariance at the claim's own example
title. -/
theorem c6_witness :
    normalize_title (("the ") ++ ("fox and the grapes")) = normalize_title ("fox and the grapes") :=
  (c6_article_invariance ("fox and the grapes") (by decide) (by decide)).1

/-! ### Claim C8: malformed records abort, they are not skipped -/

/-- Claim C8 counterexample: a record with a missing `title` makes the whole
pipeline return `KeyError: title` — the remaining records are not processed
— while the same batch without the malformed record succeeds. -/
theorem c8_counterexample :
    deduplicate_fables_raw [rawOk1, rawNoTitle, rawOk2] = Except.error ("KeyError: title")
    ∧ deduplicate_fables_raw [rawOk1, rawOk2] = Except.ok ([rawOk1, rawOk2], []) :=
  ⟨rfl, rfl⟩

lemma groupRawAux_error :
    ∀ (l : List RawRecord) (gs : List (String × List RawRecord)),
      (∃ r ∈ l, r.title = none) →
      groupRawAux gs l = Except.error ("KeyError: title") := by
  intro l
  induction l with
  | nil =>
    intro gs h
    simp at h
  | cons r rest ih =>
    intro gs h
    cases hrt : r.title with
    | none => simp [groupRawAux, hrt]
    | some t =>
      have h2 : ∃ r' ∈ rest, r'.title = none := by
        rcases h with ⟨r', hm, ht⟩
        rcases List.mem_cons.1 hm with hm1 | hm2
        · subst hm1
          rw [hrt] at ht
          exact absurd ht (by simp)
        · exact ⟨r', hm2, ht⟩
      simp only [groupRawAux, hrt]
      exact ih _ h2

/-- Claim C8 as amended: the pipeline does not skip a record whose required
`title` field is missing; it aborts the whole batch with `KeyError:
title`. -/
theorem c8_missing_title_aborts (records : List RawRecord)
    (h : ∃ r ∈ records, r.title = none) :
    deduplicate_fables_raw records = Except.error ("KeyError: title") := by
  unfold deduplicate_fables_raw
  rw [groupRawAux_error records [] h]

/-- Claim C8 witness: the amended statement at a concrete batch. -/
theorem c8_witness :
    deduplicate_fables_raw [rawOk2, rawNoTitle] = Except.error ("KeyError: title") :=
  c8_missing_title_aborts [rawOk2, rawNoTitle] (by decide)

/-! ### Claim C10: empty and near-empty normalized keys -/

/-- Claim C10 counterexample: a title made of an article plus a genre word
does not normalize to the empty string — the article strip runs first and
leaves the bare genre word, whose own regex then demands preceding
whitespace. -/
theorem c10_counterexample :
    normalize_title ("The Tale") = ("tale") ∧ normalize_title ("The Tale") ≠ ("") := by
  decide

/-- Claim C10 as amended: the normalizer does return the empty key — for a
punctuation-only title or a whitespace-led genre word — and all such records
form one duplicate group under the empty key with exactly one survivor;
article-plus-genre titles such as `The Tale` or `A Story` instead map to the
bare genre word. -/
theorem c10_empty_key_behaviour :
    normalize_title ("!!!") = ("")
    ∧ normalize_title (" fable") = ("")
    ∧ normalize_title ("The Tale") = ("tale")
    ∧ normalize_title ("A Story") = ("story")
    ∧ deduplicate_fables [fEmptyA, fEmptyB, fOther] = ([fEmptyA, fOther], [("ub")])
    ∧ (deduplicate_fables [fEmptyA, fEmptyB, fOther]).1.filter
        (fun f => normKey f == ("")) = [fEmptyA] := by
  decide

/-! ### Claim C3: the first maximal candidate wins -/

lemma maxPairFirst_split {α : Type} :
    ∀ (xs : List (ℤ × α)) (best : ℤ × α),
      ∃ l₁ l₂, best :: xs = l₁ ++ maxPairFirst best xs :: l₂
        ∧ (∀ x ∈ l₁, x.1 < (maxPairFirst best xs).1)
        ∧ ∀ x ∈ best :: xs, x.1 ≤ (maxPairFirst best xs).1 := by
  intro xs
  induction xs with
  | nil =>
    intro best
    refine ⟨[], [], rfl, by simp, ?_⟩
    intro x hx
    rw [List.mem_singleton] at hx
    subst hx
    exact le_refl _
  | cons x xs ih =>
    intro best
    by_cases hlt : best.1 < x.1
    · obtain ⟨l₁, l₂, hsplit, hless, hle⟩ := ih x
      have hmx : maxPairFirst best (x :: xs) = maxPairFirst x xs := by
        simp [maxPairFirst, hlt]
      refine ⟨best :: l₁, l₂, ?_, ?_, ?_⟩
      · rw [hmx, List.cons_append, ← hsplit]
      · intro y hy
        rw [hmx]
        rcases List.mem_cons.1 hy with hy1 | hy1
        · subst hy1
          exact lt_of_lt_of_le hlt (hle x (List.mem_cons_self _ _))
        · exact hless y hy1
      · intro y hy
        rw [hmx]
        rcases List.mem_cons.1 hy with hy1 | hy1
        · subst hy1
          exact le_of_lt (lt_of_lt_of_le hlt (hle x (List.mem_cons_self _ _)))
        · exact hle y hy1
    · obtain ⟨l₁, l₂, hsplit, hless, hle⟩ := ih best
      have hmx : maxPairFirst best (x :: xs) = maxPairFirst best xs := by
        simp [maxPairFirst, hlt]
      cases l₁ with
      | nil =>
        rw [List.nil_append] at hsplit
        injection hsplit with h1 h2
        refine ⟨[], x :: xs, ?_, by simp, ?_⟩
        · rw [hmx, ← h1, List.nil_append]
        · intro y hy
          rw [hmx, ← h1]
          rcases List.mem_cons.1 hy with hy1 | hy1
          · subst hy1
            exact le_refl _
          rcases List.mem_cons.1 hy1 with hy2 | hy2
          · subst hy2
            exact not_lt.1 hlt
          · have h3 := hle y (List.mem_cons_of_mem _ hy2)
            rw [← h1] at h3
            exact h3
      | cons b l₁' =>
        rw [List.cons_append] at hsplit
        injection hsplit with h1 h2
        subst h1
        have hbm : best.1 < (maxPairFirst best xs).1 := hless best (List.mem_cons_self _ _)
        refine ⟨best :: x :: l₁', l₂, ?_, ?_, ?_⟩
        · rw [hmx, List.cons_append, List.cons_append, ← h2]
        · intro y hy
          rw [hmx]
          rcases List.mem_cons.1 hy with hy1 | hy1
          · subst hy1
            exact hbm
          rcases List.mem_cons.1 hy1 with hy2 | hy2
          · subst hy2
            exact lt_of_le_of_lt (not_lt.1 hlt) hbm
          · exact hless y (List.mem_cons_of_mem _ hy2)
        · intro y hy
          rw [hmx]
          rcases List.mem_cons.1 hy with hy1 | hy1
          · subst hy1
            exact hle _ (List.mem_cons_self _ _)
          rcases List.mem_cons.1 hy1 with hy2 | hy2
          · subst hy2
            exact le_trans (not_lt.1 hlt) (hle _ (List.mem_cons_self _ _))
          · exact hle y (List.mem_cons_of_mem _ hy2)

/-- Claim C3 (confirmed): on every non-empty group, `choose_best_version`
returns a candidate that scores at least as high as every member and is
preceded only by strictly lower-scoring members — so when several
candidates achieve the maximum total score, the first one in group order is
selected (ties are not an error). -/
theorem c3_first_max_selected (f : Fable) (rest : List Fable) :
    ∃ b l₁ l₂, choose_best_version (f :: rest) = some b
      ∧ f :: rest = l₁ ++ b :: l₂
      ∧ (∀ x ∈ l₁, total_score x < total_score b)
      ∧ ∀ x ∈ f :: rest, total_score x ≤ total_score b := by
  obtain ⟨L₁, L₂, hsplit, hless, hle⟩ :=
    maxPairFirst_split (rest.map (fun x => (total_score x, x))) (total_score f, f)
  generalize hM : maxPairFirst (total_score f, f) (rest.map (fun x => (total_score x, x))) = m
      at hsplit hless hle
  have hchoose : choose_best_version (f :: rest) = some m.2 := by
    have h0 : choose_best_version (f :: rest)
        = some (maxPairFirst (total_score f, f) (rest.map (fun x => (total_score x, x)))).2 := rfl
    rw [h0, hM]
  have hmem : m ∈ (f :: rest).map (fun x => (total_score x, x)) := by
    show m ∈ (total_score f, f) :: rest.map (fun x => (total_score x, x))
    rw [hsplit]
    exact List.mem_append_right _ (List.mem_cons_self _ _)
  have hm1 : m.1 = total_score m.2 := by
    obtain ⟨z, hz, hzeq⟩ := List.mem_map.1 hmem
    rw [← hzeq]
  have hdecomp : f :: rest = L₁.map Prod.snd ++ m.2 :: L₂.map Prod.snd := by
    have h0 : ((total_score f, f) :: rest.map (fun x => (total_score x, x))).map Prod.snd
        = f :: rest := by
      simp only [List.map_cons, List.map_map]
      exact congrArg (List.cons f) (List.map_id rest)
    rw [← h0, hsplit]
    simp
  refine ⟨m.2, L₁.map Prod.snd, L₂.map Prod.snd, hchoose, hdecomp, ?_, ?_⟩
  · intro y hy
    obtain ⟨x, hx, hxeq⟩ := List.mem_map.1 hy
    have hxs : x ∈ (total_score f, f) :: rest.map (fun z => (total_score z, z)) := by
      rw [hsplit]
      exact List.mem_append_left _ hx
    have hx1 : x.1 = total_score x.2 := by
      obtain ⟨z, hz, hzeq⟩ := List.mem_map.1 (show x ∈ (f :: rest).map
        (fun z => (total_score z, z)) from hxs)
      rw [← hzeq]
    have h2 := hless x hx
    rw [hx1, hm1] at h2
    rw [← hxeq]
    exact h2
  · intro y hy
    have hyy : (total_score y, y) ∈ (total_score f, f) :: rest.map (fun z => (total_score z, z)) :=
      show (total_score y, y) ∈ (f :: rest).map (fun z => (total_score z, z)) from
        List.mem_map_of_mem _ hy
    have h2 := hle _ hyy
    rw [hm1] at h2
    exact h2

/-! ### Claim C4: grouping is an order-preserving partition -/

lemma groupByKey_append_singleton (l : List Fable) (f : Fable) :
    groupByKey (l ++ [f]) = insertGroup (groupByKey l) (normKey f) f := by
  unfold groupByKey
  rw [List.foldl_append]
  rfl

lemma keysOf_insertGroup {α : Type} (k : String) (f : α) :
    ∀ gs : List (String × List α),
      keysOf (insertGroup gs k f) = if k ∈ keysOf gs then keysOf gs else keysOf gs ++ [k] := by
  intro gs
  induction gs with
  | nil => simp [insertGroup, keysOf]
  | cons p rest ih =>
    obtain ⟨k0, g⟩ := p
    by_cases h : k0 = k
    · subst h
      simp [insertGroup, keysOf]
    · have hne : k ≠ k0 := fun hh => h hh.symm
      simp only [insertGroup, if_neg h, keysOf, List.map_cons] at ih ⊢
      by_cases h2 : k ∈ List.map Prod.fst rest
      · rw [ih, if_pos h2, if_pos (List.mem_cons_of_mem _ h2)]
      · have h3 : k ∉ k0 :: List.map Prod.fst rest := by
          simp [List.mem_cons, hne, h2]
        rw [ih, if_neg h2, if_neg h3, List.cons_append]

lemma lookupKey_insertGroup {α : Type} (q k : String) (f : α) :
    ∀ gs : List (String × List α),
      lookupKey q (insertGroup gs k f)
        = if q = k then some ((lookupKey k gs).getD [] ++ [f]) else lookupKey q gs := by
  intro gs
  induction gs with
  | nil =>
    by_cases h : q = k
    · subst h
      simp [insertGroup, lookupKey]
    · have h' : ¬(k = q) := fun hh => h hh.symm
      simp [insertGroup, lookupKey, h, h']
  | cons p rest ih =>
    obtain ⟨k0, g⟩ := p
    by_cases h1 : k0 = k
    · subst h1
      by_cases h2 : q = k0
      · have h2' : k0 = q := h2.symm
        simp [insertGroup, lookupKey, h2']
      · have h2' : ¬(k0 = q) := fun hh => h2 hh.symm
        simp [insertGroup, lookupKey, h2, h2']
    · by_cases h2 : q = k0
      · have hqk : ¬(q = k) := by
          rw [h2]
          exact h1
        have h2' : k0 = q := h2.symm
        simp [insertGroup, lookupKey, if_neg h1, h2', hqk]
      · have h2' : ¬(k0 = q) := fun hh => h2 hh.symm
        have hlk : lookupKey k ((k0, g) :: rest) = lookupKey k rest := by
          simp [lookupKey, h1]
        have hlq : lookupKey q ((k0, g) :: rest) = lookupKey q rest := by
          simp [lookupKey, h2']
        calc lookupKey q (insertGroup ((k0, g) :: rest) k f)
            = lookupKey q ((k0, g) :: insertGroup rest k f) := by
              simp [insertGroup, if_neg h1]
          _ = lookupKey q (insertGroup rest k f) := by simp [lookupKey, h2']
          _ = if q = k then some ((lookupKey k rest).getD [] ++ [f]) else lookupKey q rest := ih
          _ = if q = k then some ((lookupKey k ((k0, g) :: rest)).getD [] ++ [f])
                else lookupKey q ((k0, g) :: rest) := by rw [hlk, hlq]

lemma lookupKey_eq_none_iff {α : Type} (k : String) :
    ∀ gs : List (String × List α), lookupKey k gs = none ↔ k ∉ keysOf gs := by
  intro gs
  induction gs with
  | nil => simp [lookupKey, keysOf]
  | cons p rest ih =>
    obtain ⟨k0, g⟩ := p
    by_cases h : k0 = k
    · subst h
      simp [lookupKey, keysOf]
    · have h' : k ≠ k0 := fun hh => h hh.symm
      simp [lookupKey, keysOf, h, h', ih]

lemma lookupKey_groupByKey (k : String) :
    ∀ l : List Fable,
      lookupKey k (groupByKey l)
        = if k ∈ l.map normKey then some (l.filter (fun f => normKey f == k)) else none := by
  intro l
  induction l using List.reverseRecOn with
  | nil => simp [groupByKey, lookupKey]
  | append_singleton l f ih =>
    rw [groupByKey_append_singleton, lookupKey_insertGroup]
    by_cases h : k = normKey f
    · rw [if_pos h]
      have hmem : k ∈ (l ++ [f]).map normKey := by
        rw [List.map_append]
        exact List.mem_append_right _ (by simp [h])
      rw [if_pos hmem]
      have hfl : (l ++ [f]).filter (fun x => normKey x == k)
          = l.filter (fun x => normKey x == k) ++ [f] := by
        rw [List.filter_append]
        congr 1
        simp [List.filter, h.symm]
      rw [hfl, ← h]
      by_cases h2 : k ∈ l.map normKey
      · rw [ih, if_pos h2]
        rfl
      · rw [ih, if_neg h2]
        have hfe : l.filter (fun x => normKey x == k) = [] := by
          apply List.filter_eq_nil_iff.mpr
          intro x hx
          simp only [beq_iff_eq]
          intro hc
          exact h2 (by rw [← hc]; exact List.mem_map_of_mem _ hx)
        rw [hfe]
        rfl
    · rw [if_neg h, ih]
      have hmem : k ∈ (l ++ [f]).map normKey ↔ k ∈ l.map normKey := by
        rw [List.map_append]
        simp only [List.mem_append]
        constructor
        · intro hc
          rcases hc with hc | hc
          · exact hc
          · exact absurd (by simpa using hc) h
        · exact Or.inl
      have hfl : (l ++ [f]).filter (fun x => normKey x == k)
          = l.filter (fun x => normKey x == k) := by
        rw [List.filter_append]
        have hne : (normKey f == k) = false := by
          simp only [beq_eq_false_iff_ne]
          exact fun hh => h hh.symm
        have : [f].filter (fun x => normKey x == k) = [] := by
          simp [List.filter, hne]
        rw [this, List.append_nil]
      rw [hfl]
      by_cases h2 : k ∈ l.map normKey
      · rw [if_pos h2, if_pos (hmem.mpr h2)]
      · rw [if_neg h2, if_neg (fun hc => h2 (hmem.mp hc))]

lemma mem_firstSeen (k : String) : ∀ ks : List String, k ∈ firstSeen ks ↔ k ∈ ks := by
  intro ks
  induction ks with
  | nil => simp [firstSeen]
  | cons a ks ih =>
    by_cases h : k = a
    · subst h
      simp [firstSeen]
    · simp [firstSeen, List.mem_cons, List.mem_filter, ih, h, bne_iff_ne]

lemma firstSeen_append_singleton (k : String) :
    ∀ ks : List String,
      firstSeen (ks ++ [k]) = if k ∈ ks then firstSeen ks else firstSeen ks ++ [k] := by
  intro ks
  induction ks with
  | nil => simp [firstSeen]
  | cons a ks ih =>
    rw [List.cons_append]
    by_cases h : k ∈ ks
    · rw [if_pos (List.mem_cons_of_mem _ h)]
      simp only [firstSeen]
      rw [ih, if_pos h]
    · by_cases h2 : k = a
      · rw [if_pos (by rw [h2]; exact List.mem_cons_self _ _)]
        simp only [firstSeen]
        rw [ih, if_neg h, List.filter_append]
        have he : ([k].filter (fun x => x != a)) = [] := by
          simp [h2]
        rw [he, List.append_nil]
      · rw [if_neg (by simp [List.mem_cons, h, h2])]
        simp only [firstSeen]
        rw [ih, if_neg h, List.filter_append]
        have he : ([k].filter (fun x => x != a)) = [k] := by
          simp [h2]
        rw [he, List.cons_append]

lemma firstSeen_nodup : ∀ ks : List String, (firstSeen ks).Nodup := by
  intro ks
  induction ks with
  | nil => simp [firstSeen]
  | cons a ks ih =>
    simp only [firstSeen]
    rw [List.nodup_cons]
    refine ⟨?_, List.Nodup.filter _ ih⟩
    intro hmem
    have := (List.mem_filter.1 hmem).2
    simp at this

lemma keysOf_groupByKey : ∀ l : List Fable, keysOf (groupByKey l) = firstSeen (l.map normKey) := by
  intro l
  induction l using List.reverseRecOn with
  | nil => simp [groupByKey, keysOf, firstSeen]
  | append_singleton l f ih =>
    rw [groupByKey_append_singleton, keysOf_insertGroup, List.map_append]
    simp only [List.map_cons, List.map_nil]
    rw [firstSeen_append_singleton, ih]
    simp only [mem_firstSeen]

lemma lookupKey_mem {α : Type} (k : String) (g : List α) :
    ∀ gs, lookupKey k gs = some g → (k, g) ∈ gs := by
  intro gs
  induction gs with
  | nil =>
    intro h
    exact absurd h (by simp [lookupKey])
  | cons p rest ih =>
    obtain ⟨k0, g0⟩ := p
    intro h
    by_cases h1 : k0 = k
    · subst h1
      rw [show lookupKey k0 ((k0, g0) :: rest) = some g0 from by simp [lookupKey]] at h
      injection h with h2
      rw [← h2]
      exact List.mem_cons_self _ _
    · rw [show lookupKey k ((k0, g0) :: rest) = lookupKey k rest from by simp [lookupKey, h1]] at h
      exact List.mem_cons_of_mem _ (ih h)

lemma lookupKey_eq_of_mem {α : Type} (k : String) (g : List α) :
    ∀ gs, (keysOf gs).Nodup → (k, g) ∈ gs → lookupKey k gs = some g := by
  intro gs
  induction gs with
  | nil =>
    intro _ h
    cases h
  | cons p rest ih =>
    obtain ⟨k0, g0⟩ := p
    intro hnd hm
    rw [show keysOf ((k0, g0) :: rest) = k0 :: keysOf rest from rfl, List.nodup_cons] at hnd
    rcases List.mem_cons.1 hm with he | hm2
    · cases he
      simp [lookupKey]
    · have hk0 : ¬(k0 = k) := by
        intro he
        subst he
        exact hnd.1 (List.mem_map_of_mem Prod.fst hm2)
      simp only [lookupKey, if_neg hk0]
      exact ih hnd.2 hm2

/-- Claim C4 (confirmed): grouping by normalized title is an order-preserving
partition — each group of `groupByKey` is exactly the sub-sequence of input
records carrying its key (so records keep input order, groups are disjoint
and their union is the input set), every input record lands in the group of
its key, keys are pairwise distinct, and the groups stand in first-seen
order of their keys. -/
theorem c4_grouping_partition (l : List Fable) :
    (∀ k g, (k, g) ∈ groupByKey l →
        g = l.filter (fun f => normKey f == k) ∧ g ≠ [] ∧ ∀ f ∈ g, normKey f = k)
    ∧ (keysOf (groupByKey l)).Nodup
    ∧ (∀ f ∈ l, ∃ g, (normKey f, g) ∈ groupByKey l ∧ f ∈ g)
    ∧ keysOf (groupByKey l) = firstSeen (l.map normKey) := by
  have hnd : (keysOf (groupByKey l)).Nodup := by
    rw [keysOf_groupByKey]
    exact firstSeen_nodup _
  refine ⟨?_, hnd, ?_, keysOf_groupByKey l⟩
  · intro k g hm
    have hl := lookupKey_eq_of_mem k g _ hnd hm
    rw [lookupKey_groupByKey] at hl
    by_cases h2 : k ∈ l.map normKey
    · rw [if_pos h2] at hl
      injection hl with hl2
      refine ⟨hl2.symm, ?_, ?_⟩
      · rw [← hl2]
        obtain ⟨x, hx, hxk⟩ := List.mem_map.1 h2
        intro hc
        have hxm : x ∈ l.filter (fun f => normKey f == k) :=
          List.mem_filter.2 ⟨hx, by simp [hxk]⟩
        rw [hc] at hxm
        cases hxm
      · intro f hf
        rw [← hl2] at hf
        have := (List.mem_filter.1 hf).2
        simpa using this
    · rw [if_neg h2] at hl
      cases hl
  · intro f hf
    have h2 : normKey f ∈ l.map normKey := List.mem_map_of_mem _ hf
    have hl := lookupKey_groupByKey (normKey f) l
    rw [if_pos h2] at hl
    refine ⟨l.filter (fun x => normKey x == normKey f), lookupKey_mem _ _ _ hl, ?_⟩
    exact List.mem_filter.2 ⟨hf, by simp⟩

/-! ### Claim C1: exactly one survivor per normalized key -/

lemma dedupStep_eq (acc : List Fable × List String) (g : List Fable) :
    dedupStep acc g = (acc.1 ++ survivorOf g, acc.2 ++ removedOf g) := by
  by_cases h : 1 < g.length
  · cases hc : choose_best_version g with
    | some best => simp [dedupStep, survivorOf, removedOf, h, hc]
    | none => simp [dedupStep, survivorOf, removedOf, h, hc]
  · cases hg : g with
    | nil => simp [dedupStep, survivorOf, removedOf, h, hg]
    | cons a t =>
      rw [hg] at h
      have ht : t = [] := by
        cases t with
        | nil => rfl
        | cons b tt =>
          exact absurd (by simp : 1 < (a :: b :: tt).length) h
      subst ht
      simp [dedupStep, survivorOf, removedOf]

lemma dedup_foldl (gs : List (String × List Fable)) :
    ∀ (out : List Fable) (rem : List String),
      gs.foldl (fun acc kg => dedupStep acc kg.2) (out, rem)
        = (out ++ (gs.map (fun kg => survivorOf kg.2)).flatten,
           rem ++ (gs.map (fun kg => removedOf kg.2)).flatten) := by
  induction gs with
  | nil =>
    intro out rem
    simp
  | cons kg rest ih =>
    intro out rem
    rw [List.foldl_cons, dedupStep_eq, ih]
    simp [List.append_assoc]

lemma deduplicate_fables_eq (l : List Fable) :
    deduplicate_fables l
      = (((groupByKey l).map (fun kg => survivorOf kg.2)).flatten,
         ((groupByKey l).map (fun kg => removedOf kg.2)).flatten) := by
  unfold deduplicate_fables
  rw [dedup_foldl]
  simp

lemma maxPairFirst_mem {α : Type} :
    ∀ (xs : List (ℤ × α)) (best : ℤ × α), maxPairFirst best xs ∈ best :: xs := by
  intro xs
  induction xs with
  | nil =>
    intro best
    simp [maxPairFirst]
  | cons x xs ih =>
    intro best
    by_cases h : best.1 < x.1
    · have h2 : maxPairFirst best (x :: xs) = maxPairFirst x xs := by simp [maxPairFirst, h]
      rw [h2]
      exact List.mem_cons_of_mem _ (ih x)
    · have h2 : maxPairFirst best (x :: xs) = maxPairFirst best xs := by simp [maxPairFirst, h]
      rw [h2]
      rcases List.mem_cons.1 (ih best) with he | hm
      · rw [he]
        exact List.mem_cons_self _ _
      · exact List.mem_cons_of_mem _ (List.mem_cons_of_mem _ hm)

lemma choose_best_mem (g : List Fable) (b : Fable) (hb : choose_best_version g = some b) :
    b ∈ g := by
  cases g with
  | nil => exact absurd hb (by simp [choose_best_version])
  | cons f rest =>
    have h0 : choose_best_version (f :: rest)
        = some (maxPairFirst (total_score f, f) (rest.map (fun x => (total_score x, x)))).2 := rfl
    rw [h0] at hb
    injection hb with hb2
    have hm : maxPairFirst (total_score f, f) (rest.map (fun x => (total_score x, x)))
        ∈ (f :: rest).map (fun x => (total_score x, x)) :=
      maxPairFirst_mem _ _
    obtain ⟨z, hz, hzeq⟩ := List.mem_map.1 hm
    rw [← hb2, ← hzeq]
    exact hz

lemma survivorOf_of_choose (g : List Fable) (b : Fable) (hb : choose_best_version g = some b) :
    survivorOf g = [b] := by
  cases g with
  | nil => exact absurd hb (by simp [choose_best_version])
  | cons f rest =>
    cases rest with
    | nil =>
      have hb2 : b = f := by
        have h0 : choose_best_version [f] = some f := rfl
        rw [h0] at hb
        injection hb with h1
        exact h1.symm
      rw [hb2]
      simp [survivorOf]
    | cons f2 rest2 =>
      have hlen : 1 < (f :: f2 :: rest2).length := by simp
      simp [survivorOf, hlen, hb]

lemma survivorOf_subset (g : List Fable) : ∀ x ∈ survivorOf g, x ∈ g := by
  intro x hx
  by_cases h : 1 < g.length
  · cases hc : choose_best_version g with
    | some best =>
      rw [show survivorOf g = [best] from survivorOf_of_choose g best hc] at hx
      rw [List.mem_singleton.1 hx]
      exact choose_best_mem g best hc
    | none =>
      simp [survivorOf, h, hc] at hx
  · cases hg : g with
    | nil =>
      rw [hg] at hx
      simp [survivorOf] at hx
    | cons a t =>
      rw [hg] at h hx
      have ht : t = [] := by
        cases t with
        | nil => rfl
        | cons b tt =>
          exact absurd (by simp : 1 < (a :: b :: tt).length) h
      subst ht
      simp [survivorOf] at hx
      simp [hg, hx]

lemma filter_flatten {α : Type} (p : α → Bool) :
    ∀ L : List (List α), (L.flatten).filter p = (L.map (List.filter p)).flatten := by
  intro L
  induction L with
  | nil => simp
  | cons a L ih => simp [List.filter_append, ih]

lemma join_filter_survivors (k : String) (g : List Fable) (b : Fable) :
    ∀ gs : List (String × List Fable),
      (keysOf gs).Nodup →
      (∀ k' g', (k', g') ∈ gs → ∀ x ∈ survivorOf g', normKey x = k') →
      (k, g) ∈ gs →
      survivorOf g = [b] →
      ((gs.map (fun kg => survivorOf kg.2)).flatten).filter (fun f => normKey f == k) = [b] := by
  intro gs
  induction gs with
  | nil =>
    intro _ _ hm
    cases hm
  | cons kg rest ih =>
    intro hnd hkeys hm hsv
    obtain ⟨k0, g0⟩ := kg
    rw [show keysOf ((k0, g0) :: rest) = k0 :: keysOf rest from rfl, List.nodup_cons] at hnd
    rw [List.map_cons, List.flatten_cons, List.filter_append]
    rcases List.mem_cons.1 hm with he | hmr
    · have hk : k = k0 := congrArg Prod.fst he
      have hg : g = g0 := congrArg Prod.snd he
      have hhead : (survivorOf g0).filter (fun f => normKey f == k) = [b] := by
        rw [← hg, hsv]
        have : normKey b = k := by
          rw [hk]
          exact hkeys k0 g0 (List.mem_cons_self _ _) b (by rw [← hg, hsv]; exact List.mem_singleton_self _)
        simp [List.filter, this]
      have htail : (((rest.map (fun kg => survivorOf kg.2)).flatten).filter
          (fun f => normKey f == k)) = [] := by
        apply List.filter_eq_nil_iff.mpr
        intro y hy
        obtain ⟨piece, hpiece, hyp⟩ := List.mem_flatten.1 hy
        obtain ⟨kg2, hkg2, hkg2eq⟩ := List.mem_map.1 hpiece
        obtain ⟨k2, g2⟩ := kg2
        have hky : normKey y = k2 := hkeys k2 g2 (List.mem_cons_of_mem _ hkg2) y (by rw [hkg2eq]; exact hyp)
        have hk2 : k2 ∈ keysOf rest := List.mem_map_of_mem Prod.fst hkg2
        have hne : k2 ≠ k := by
          intro hc
          apply hnd.1
          rw [← hk, ← hc]
          exact hk2
        simp [hky, hne]
      rw [hhead, htail, List.append_nil]
    · have hkmem : k ∈ keysOf rest := List.mem_map_of_mem Prod.fst hmr
      have hne : k0 ≠ k := by
        intro hc
        rw [hc] at hnd
        exact hnd.1 hkmem
      have hhead : (survivorOf g0).filter (fun f => normKey f == k) = [] := by
        apply List.filter_eq_nil_iff.mpr
        intro y hy
        have hky : normKey y = k0 := hkeys k0 g0 (List.mem_cons_self _ _) y hy
        simp [hky, hne]
      rw [hhead, List.nil_append]
      exact ih hnd.2 (fun k' g' hmem => hkeys k' g' (List.mem_cons_of_mem _ hmem)) hmr hsv

/-- Claim C1 (confirmed): for every normalized key occurring in the input,
the deduplicated output contains exactly one record whose normalized title
equals that key (the filter of the output by that key is a one-element
list), and that record is a member of the key's duplicate group. -/
theorem c1_unique_survivor_per_key (l : List Fable) (k : String)
    (h : k ∈ l.map normKey) :
    ∃ b g, (k, g) ∈ groupByKey l ∧ b ∈ g
      ∧ (deduplicate_fables l).1.filter (fun f => normKey f == k) = [b] := by
  have hnd : (keysOf (groupByKey l)).Nodup := by
    rw [keysOf_groupByKey]
    exact firstSeen_nodup _
  have hgl := lookupKey_groupByKey k l
  rw [if_pos h] at hgl
  have hmemG : (k, l.filter (fun f => normKey f == k)) ∈ groupByKey l :=
    lookupKey_mem _ _ _ hgl
  obtain ⟨x, hx, hxk⟩ := List.mem_map.1 h
  have hxg : x ∈ l.filter (fun f => normKey f == k) :=
    List.mem_filter.2 ⟨hx, by simp [hxk]⟩
  obtain ⟨b, hb⟩ : ∃ b, choose_best_version (l.filter (fun f => normKey f == k)) = some b := by
    cases hc : l.filter (fun f => normKey f == k) with
    | nil =>
      rw [hc] at hxg
      cases hxg
    | cons f0 rest0 => exact ⟨_, rfl⟩
  have hsv := survivorOf_of_choose _ b hb
  have hC4keys : ∀ k' g', (k', g') ∈ groupByKey l → ∀ y ∈ survivorOf g', normKey y = k' := by
    intro k' g' hm y hy
    have hl2 := lookupKey_eq_of_mem k' g' _ hnd hm
    rw [lookupKey_groupByKey] at hl2
    by_cases h2 : k' ∈ l.map normKey
    · rw [if_pos h2] at hl2
      injection hl2 with hl3
      have hy2 := survivorOf_subset g' y hy
      rw [← hl3] at hy2
      have := (List.mem_filter.1 hy2).2
      simpa using this
    · rw [if_neg h2] at hl2
      cases hl2
  refine ⟨b, l.filter (fun f => normKey f == k), hmemG, choose_best_mem _ _ hb, ?_⟩
  rw [deduplicate_fables_eq]
  exact join_filter_survivors k _ b _ hnd hC4keys hmemG hsv

/-- Claim C1 witness: the empty key's duplicate group of a concrete corpus
keeps exactly one record. -/
theorem c1_witness :
    ∃ b g, (("" : String), g) ∈ groupByKey [fEmptyA, fEmptyB, fOther] ∧ b ∈ g
      ∧ (deduplicate_fables [fEmptyA, fEmptyB, fOther]).1.filter
          (fun f => normKey f == ("")) = [b] :=
  c1_unique_survivor_per_key [fEmptyA, fEmptyB, fOther] ("") (by decide)

/-! ### Claim C7: the removed-story audit trail -/

lemma containsSub_eq_true_iff (n : List Char) :
    ∀ h : List Char, containsSub n h = true ↔ ∃ a b, h = a ++ b ∧ n.isPrefixOf b = true := by
  intro h
  induction h with
  | nil =>
    simp only [containsSub]
    constructor
    · intro hp
      exact ⟨[], [], rfl, hp⟩
    · rintro ⟨a, b, hab, hp⟩
      obtain ⟨ha, hb⟩ := List.append_eq_nil.1 hab.symm
      rw [hb] at hp
      exact hp
  | cons c rest ih =>
    simp only [containsSub, Bool.or_eq_true]
    constructor
    · rintro (hp | hc)
      · exact ⟨[], c :: rest, rfl, hp⟩
      · obtain ⟨a, b, hab, hp⟩ := ih.1 hc
        refine ⟨c :: a, b, ?_, hp⟩
        rw [List.cons_append, ← hab]
    · rintro ⟨a, b, hab, hp⟩
      cases a with
      | nil =>
        left
        rw [List.nil_append] at hab
        rw [← hab] at hp
        exact hp
      | cons a0 atl =>
        right
        rw [List.cons_append] at hab
        injection hab with h1 h2
        exact ih.2 ⟨atl, b, h2, hp⟩

lemma splitSrchAux_ne_nil : ∀ acc cs, splitSrchAux acc cs ≠ [] := by
  intro acc cs
  induction acc, cs using splitSrchAux.induct with
  | case1 acc => simp [splitSrchAux]
  | case2 acc rest ih => simp [splitSrchAux]
  | case3 acc c rest hne ih =>
    rw [splitSrchAux.eq_3 acc c rest hne]
    exact ih

lemma getLastD_irrel {α : Type} : ∀ (l : List α), l ≠ [] → ∀ d d' : α, l.getLastD d = l.getLastD d' := by
  intro l h d d'
  cases l with
  | nil => exact absurd rfl h
  | cons a t => rfl

lemma srch_isPrefixOf_eq (cs : List Char) (h : srchChars.isPrefixOf cs = true) :
    ∃ t, cs = '?' :: 's' :: 'r' :: 'c' :: 'h' :: '&' :: t := by
  obtain ⟨t, ht⟩ := List.isPrefixOf_iff_prefix.1 h
  exact ⟨t, ht.symm⟩

lemma splitSrchAux_last :
    ∀ acc cs,
      (∀ a b, acc.reverse = a ++ b → b ≠ [] → srchChars.isPrefixOf (b ++ cs) = false) →
      containsSub srchChars ((splitSrchAux acc cs).getLastD []) = false
      ∧ (containsSub srchChars cs = true →
          ∃ p, acc.reverse ++ cs = p ++ srchChars ++ (splitSrchAux acc cs).getLastD [])
      ∧ (containsSub srchChars cs = false →
          (splitSrchAux acc cs).getLastD [] = acc.reverse ++ cs) := by
  intro acc cs
  induction acc, cs using splitSrchAux.induct with
  | case1 acc =>
    intro hinv
    rw [splitSrchAux.eq_1]
    have hlast : (([acc.reverse] : List (List Char)).getLastD []) = acc.reverse := rfl
    refine ⟨?_, ?_, ?_⟩
    · rw [hlast]
      by_contra hc
      rw [Bool.not_eq_false] at hc
      obtain ⟨a, b, hab, hp⟩ := (containsSub_eq_true_iff _ _).1 hc
      have hbne : b ≠ [] := by
        intro hb
        rw [hb] at hp
        exact absurd hp (by decide)
      have hfalse := hinv a b hab hbne
      rw [List.append_nil] at hfalse
      rw [hp] at hfalse
      cases hfalse
    · intro hc
      exact absurd hc (by decide)
    · intro _
      rw [hlast, List.append_nil]
  | case2 acc rest ih =>
    intro hinv
    rw [splitSrchAux.eq_2]
    have hne := splitSrchAux_ne_nil [] rest
    have hlast : (((acc.reverse :: splitSrchAux [] rest) : List (List Char)).getLastD [])
        = (splitSrchAux [] rest).getLastD [] := by
      rw [List.getLastD_cons]
      exact getLastD_irrel _ hne _ _
    have hinv0 : ∀ a b, ([] : List Char).reverse = a ++ b → b ≠ [] →
        srchChars.isPrefixOf (b ++ rest) = false := by
      intro a b hab hbne
      exfalso
      obtain ⟨ha, hb⟩ := List.append_eq_nil.1 (by simpa using hab.symm)
      exact hbne hb
    obtain ⟨ih1, ih2, ih3⟩ := ih hinv0
    refine ⟨?_, ?_, ?_⟩
    · rw [hlast]
      exact ih1
    · intro _
      by_cases hc2 : containsSub srchChars rest = true
      · obtain ⟨p, hp⟩ := ih2 hc2
        have hp' : rest = p ++ srchChars ++ (splitSrchAux [] rest).getLastD [] := by
          simpa using hp
        refine ⟨acc.reverse ++ srchChars ++ p, ?_⟩
        rw [hlast]
        show acc.reverse ++ (srchChars ++ rest) = _
        have hcong : srchChars ++ rest
            = srchChars ++ (p ++ srchChars ++ ((splitSrchAux [] rest).getLastD [])) :=
          congrArg (fun z => srchChars ++ z) hp'
        rw [hcong]
        simp [List.append_assoc]
      · have hc2' : containsSub srchChars rest = false := by
          cases hcc : containsSub srchChars rest with
          | false => rfl
          | true => exact absurd hcc hc2
        have h3 := ih3 hc2'
        refine ⟨acc.reverse, ?_⟩
        rw [hlast, h3]
        show acc.reverse ++ (srchChars ++ rest) = _
        simp [List.append_assoc]
    · intro hc
      exfalso
      have hp : srchChars.isPrefixOf ('?' :: 's' :: 'r' :: 'c' :: 'h' :: '&' :: rest) = true := by
        have hpre : srchChars <+: srchChars ++ rest := List.prefix_append _ _
        exact List.isPrefixOf_iff_prefix.2 hpre
      have htrue : containsSub srchChars ('?' :: 's' :: 'r' :: 'c' :: 'h' :: '&' :: rest) = true := by
        have hdef : containsSub srchChars ('?' :: 's' :: 'r' :: 'c' :: 'h' :: '&' :: rest)
            = (srchChars.isPrefixOf ('?' :: 's' :: 'r' :: 'c' :: 'h' :: '&' :: rest)
                || containsSub srchChars ('s' :: 'r' :: 'c' :: 'h' :: '&' :: rest)) := rfl
        rw [hdef, hp, Bool.true_or]
      rw [htrue] at hc
      cases hc
  | case3 acc c rest hne ih =>
    intro hinv
    have hnpre : srchChars.isPrefixOf (c :: rest) = false := by
      by_contra hcc
      rw [Bool.not_eq_false] at hcc
      obtain ⟨t, ht⟩ := srch_isPrefixOf_eq _ hcc
      injection ht with h1 h2
      exact hne t h1 h2
    have hinv' : ∀ a b, (c :: acc).reverse = a ++ b → b ≠ [] →
        srchChars.isPrefixOf (b ++ rest) = false := by
      intro a b hab hbne
      rw [List.reverse_cons] at hab
      cases hbrev : b.reverse with
      | nil =>
        exfalso
        apply hbne
        rw [← List.reverse_reverse b, hbrev]
        rfl
      | cons x xs =>
        have hab2 : c :: acc = b.reverse ++ a.reverse := by
          have hr := congrArg List.reverse hab
          simpa [List.reverse_append] using hr
        rw [hbrev] at hab2
        injection hab2 with hx hacc
        have hb : b = xs.reverse ++ [x] := by
          rw [← List.reverse_reverse b, hbrev]
          simp
        cases hxs : xs with
        | nil =>
          rw [hb, hxs]
          simp only [List.reverse_nil, List.nil_append]
          have hxr : ([x] : List Char) ++ rest = x :: rest := rfl
          rw [hxr, ← hx]
          exact hnpre
        | cons y ys =>
          have hdecomp : acc.reverse = a ++ xs.reverse := by
            rw [hacc]
            simp [List.reverse_append]
          have hxsne : xs.reverse ≠ [] := by
            rw [hxs]
            simp
          have hfin := hinv a xs.reverse hdecomp hxsne
          rw [hb, ← hx, List.append_assoc]
          exact hfin
    obtain ⟨ih1, ih2, ih3⟩ := ih hinv'
    have heq := splitSrchAux.eq_3 acc c rest hne
    refine ⟨?_, ?_, ?_⟩
    · rw [heq]
      exact ih1
    · intro hc
      have hcr : containsSub srchChars rest = true := by
        have hdef : containsSub srchChars (c :: rest)
            = (srchChars.isPrefixOf (c :: rest) || containsSub srchChars rest) := rfl
        rw [hdef, hnpre, Bool.false_or] at hc
        exact hc
      obtain ⟨p, hp⟩ := ih2 hcr
      refine ⟨p, ?_⟩
      rw [heq]
      have hstep : acc.reverse ++ (c :: rest) = (c :: acc).reverse ++ rest := by
        simp [List.reverse_cons, List.append_assoc]
      rw [hstep, hp]
    · intro hc
      have hcr : containsSub srchChars rest = false := by
        have hdef : containsSub srchChars (c :: rest)
            = (srchChars.isPrefixOf (c :: rest) || containsSub srchChars rest) := rfl
        rw [hdef, hnpre, Bool.false_or] at hc
        exact hc
      have h3 := ih3 hcr
      rw [heq, h3]
      simp [List.reverse_cons, List.append_assoc]

lemma url_suffix_strip (u : String) (h : containsSub srchChars u.data = true) :
    ∃ p, u.data = p ++ srchChars ++ (url_suffix u).data
      ∧ containsSub srchChars (url_suffix u).data = false := by
  have hinv : ∀ a b, ([] : List Char).reverse = a ++ b → b ≠ [] →
      srchChars.isPrefixOf (b ++ u.data) = false := by
    intro a b hab hbne
    exfalso
    obtain ⟨ha, hb⟩ := List.append_eq_nil.1 (by simpa using hab.symm)
    exact hbne hb
  obtain ⟨h1, h2, h3⟩ := splitSrchAux_last [] u.data hinv
  obtain ⟨p, hp⟩ := h2 h
  have hus : (url_suffix u).data = (splitSrchAux [] u.data).getLastD [] := by
    simp [url_suffix, h]
  refine ⟨p, ?_, ?_⟩
  · rw [hus]
    simpa using hp
  · rw [hus]
    exact h1

/-- Claim C7 (confirmed): the removed-story audit list is exactly the
per-group lists of non-selected candidates, each keyed by
`url.split('?srch&')[-1]` when the separator occurs (everything up to and
including its last occurrence is stripped, and the remainder is
separator-free) and by the verbatim URL otherwise; no candidate leaves the
output without either surviving as the canonical record or leaving an audit
entry. -/
theorem c7_removed_audit (l : List Fable) :
    ((deduplicate_fables l).2 = ((groupByKey l).map (fun kg => removedOf kg.2)).flatten)
    ∧ (∀ g b, choose_best_version g = some b → 1 < g.length →
        removedOf g = (g.filter (fun x => x != b)).map (fun x => url_suffix x.url))
    ∧ (∀ k g b, (k, g) ∈ groupByKey l → choose_best_version g = some b →
        ∀ f ∈ g, f = b ∨ url_suffix f.url ∈ (deduplicate_fables l).2)
    ∧ (∀ u : String, containsSub srchChars u.data = false → url_suffix u = u)
    ∧ (∀ u : String, containsSub srchChars u.data = true →
        ∃ p, u.data = p ++ srchChars ++ (url_suffix u).data
          ∧ containsSub srchChars (url_suffix u).data = false) := by
  refine ⟨?_, ?_, ?_, ?_, ?_⟩
  · rw [deduplicate_fables_eq]
  · intro g b hb hlen
    simp [removedOf, hlen, hb]
  · intro k g b hm hb f hf
    by_cases hfb : f = b
    · exact Or.inl hfb
    · right
      rw [deduplicate_fables_eq]
      show url_suffix f.url ∈ ((groupByKey l).map (fun kg => removedOf kg.2)).flatten
      apply List.mem_flatten.2
      refine ⟨removedOf g, List.mem_map_of_mem _ hm, ?_⟩
      cases g with
      | nil => exact absurd hb (by simp [choose_best_version])
      | cons f0 rest0 =>
        cases rest0 with
        | nil =>
          have hb0 : b = f0 := by
            have h0 : choose_best_version [f0] = some f0 := rfl
            rw [h0] at hb
            injection hb with h1
            exact h1.symm
          have hf0 : f = f0 := List.mem_singleton.1 hf
          exact absurd (hf0.trans hb0.symm) hfb
        | cons f1 rest1 =>
          have hlen : 1 < (f0 :: f1 :: rest1).length := by simp
          rw [show removedOf (f0 :: f1 :: rest1)
              = ((f0 :: f1 :: rest1).filter (fun x => x != b)).map (fun x => url_suffix x.url)
            from by simp [removedOf, hlen, hb]]
          apply List.mem_map_of_mem
          exact List.mem_filter.2 ⟨hf, by simp [hfb]⟩
  · intro u hu
    simp [url_suffix, hu]
  · intro u hu
    exact url_suffix_strip u hu

/-! ### Claim C9: sequential zero-padded ids, order-preserving store -/

lemma chunks100_flatten : ∀ es : List StoreEntry, (chunks100 es).flatten = es := by
  intro es
  induction es using chunks100.induct with
  | case1 => simp [chunks100]
  | case2 e rest ih =>
    rw [chunks100]
    rw [List.flatten_cons, ih]
    exact List.take_append_drop _ _

lemma foldl_storeAdd : ∀ (cs : List (List StoreEntry)) (init : List StoreEntry),
    cs.foldl storeAdd init = init ++ cs.flatten := by
  intro cs
  induction cs with
  | nil =>
    intro init
    simp
  | cons a cs ih =>
    intro init
    rw [List.foldl_cons, ih]
    simp [storeAdd, List.append_assoc]

lemma embed_fables_eq (fables : List EmbedFable) : embed_fables fables = mkEntries fables := by
  unfold embed_fables
  rw [foldl_storeAdd, chunks100_flatten]
  simp

/-- Claim C9 (confirmed): running the embedder over a fresh store persists
one entry per fable in exactly the submitted order, the `i`-th entry
carrying the id `fable_` plus `i` zero-padded to four digits; reading the
store back (insertion order, per the spec's store contract) returns the
entries exactly as submitted. -/
theorem c9_sequential_ids (fables : List EmbedFable) :
    embed_fables fables = mkEntries fables
    ∧ (embed_fables fables).map (fun e => e.id) = (List.range fables.length).map fableId
    ∧ (embed_fables fables).map (fun e => e.metadata.title) = fables.map (fun f => f.title)
    ∧ (embed_fables fables).length = fables.length
    ∧ fableId 0 = ("fable_0000") ∧ fableId 1 = ("fable_0001") ∧ fableId 123 = ("fable_0123") := by
  have hids : (mkEntries fables).map (fun e => e.id)
      = (List.range fables.length).map fableId := by
    unfold mkEntries
    rw [List.map_map]
    rw [show ((fun e : StoreEntry => e.id) ∘ fun p : Nat × EmbedFable => mkEntry p.1 p.2)
        = (fableId ∘ Prod.fst) from rfl]
    rw [← List.map_map, List.enum_map_fst]
  have htitles : (mkEntries fables).map (fun e => e.metadata.title)
      = fables.map (fun f => f.title) := by
    unfold mkEntries
    rw [List.map_map]
    rw [show ((fun e : StoreEntry => e.metadata.title) ∘ fun p : Nat × EmbedFable => mkEntry p.1 p.2)
        = ((fun f : EmbedFable => f.title) ∘ Prod.snd) from rfl]
    rw [← List.map_map, List.enum_map_snd]
  have hlen : (mkEntries fables).length = fables.length := by
    unfold mkEntries
    rw [List.length_map, List.enum_length]
  refine ⟨embed_fables_eq fables, ?_, ?_, ?_, by decide, by decide, by decide⟩
  · rw [embed_fables_eq]
    exact hids
  · rw [embed_fables_eq]
    exact htitles
  · rw [embed_fables_eq]
    exact hlen
